import Mathlib

set_option maxRecDepth 40000

/-!
Shallow embedding of the classical decision core of the
quantum-roman-domination backend (`src/backend/qsolver.py`):
the constraint evaluator, the bit-sequence decoder, the sample
selector, the greedy repair loop, the weight-reduction pass and the
hybrid arbitration tail of `run_vqe_on_ibm`.

Python dictionaries are modelled as association lists with
replace-first-or-append update (`dset`) and first-match lookup
(`dget`); a failed bare dictionary index (Python `KeyError`) is
modelled by `Option`/`none` propagation.
-/

/-- One signed edge of the input graph (`{source, target, sign}`). -/
structure Edge where
  source : Nat
  target : Nat
  sign   : Int
  deriving DecidableEq, Repr

/-- Python dict lookup `d[k]` as first-match search: `none` models `KeyError`. -/
def dget : List (Nat × Nat) → Nat → Option Nat
  | [], _ => none
  | (k0, v0) :: rest, k => if k0 = k then some v0 else dget rest k

/-- Python dict store `d[k] = v`: replace the entry if the key is present,
otherwise append it at the end (insertion order). -/
def dset : List (Nat × Nat) → Nat → Nat → List (Nat × Nat)
  | [], k, v => [(k, v)]
  | (k0, v0) :: rest, k, v =>
    if k0 = k then (k, v) :: rest else (k0, v0) :: dset rest k v

/-- Python `assignment.get(v_id, 0)`. -/
def aget (a : List (Nat × Nat)) (k : Nat) : Nat := (dget a k).getD 0

/-- Python `sum(assignment.values())`. -/
def weight (a : List (Nat × Nat)) : Nat := (a.map Prod.snd).sum

/-- `get_neighbors` from qsolver.py: scan the edges incident to `v_id`
in both directions, in edge order. -/
def get_neighbors (v_id : Nat) : List Edge → List (Nat × Int)
  | [] => []
  | e :: es =>
    if e.source = v_id then (e.target, e.sign) :: get_neighbors v_id es
    else if e.target = v_id then (e.source, e.sign) :: get_neighbors v_id es
    else get_neighbors v_id es

/-- One step of the neighbor loop of `evaluate_solution`: accumulate the
defense score and the strong-neighbor flag. -/
def nbStep (a : List (Nat × Nat)) (val : Nat) (p : Int × Bool) (n : Nat × Int) :
    Int × Bool :=
  (p.1 + (aget a n.1 : Int) * n.2,
   p.2 || (val == 0 && aget a n.1 == 2 && n.2 == 1))

/-- The per-vertex body of the loop of `evaluate_solution`: add the
condition (i) and condition (ii) penalties to the accumulator. -/
def evalVertex (a : List (Nat × Nat)) (E : List Edge) (acc : Int) (v_id : Nat) :
    Int :=
  let val := aget a v_id
  let ds := (get_neighbors v_id E).foldl (nbStep a val) ((val : Int), false)
  let acc1 := if val == 0 && !ds.2 then acc + 10 else acc
  if ds.1 < 1 then acc1 + (5 + |1 - ds.1|) else acc1

/-- `evaluate_solution(assignment, vertices, edges)` from qsolver.py.
Returns `(is_valid, total_weight, violations)`. -/
def evaluate_solution (a : List (Nat × Nat)) (V : List Nat) (E : List Edge) :
    Bool × Nat × Int :=
  let total_weight := weight a
  let violations := V.foldl (evalVertex a E) 0
  (violations == 0, total_weight, violations)

/-! ### The evaluator contract as the specification words it (for C1) -/

/-- Modelled from the spec: a vertex's defense score, its own value plus the
sign-weighted sum of its neighbors' values (dangling endpoints contribute 0). -/
def defenseScore (a : List (Nat × Nat)) (E : List Edge) (v : Nat) : Int :=
  (aget a v : Int) + ((get_neighbors v E).map (fun n => (aget a n.1 : Int) * n.2)).sum

/-- Modelled from the spec: the vertex has a positive-sign neighbor valued 2. -/
def strongNb (a : List (Nat × Nat)) (E : List Edge) (v : Nat) : Bool :=
  (get_neighbors v E).any (fun n => aget a n.1 == 2 && n.2 == 1)

/-- Modelled from the spec: the penalty a single vertex contributes,
10 for a failed domination condition (i) and `5 + (1 - defense)` for a
failed defense-sufficiency condition (ii). -/
def claimPenalty (a : List (Nat × Nat)) (E : List Edge) (v : Nat) : Int :=
  (if aget a v = 0 ∧ strongNb a E v = false then 10 else 0)
  + (if defenseScore a E v < 1 then 5 + (1 - defenseScore a E v) else 0)

/-- Modelled from the spec: total violations as a sum of per-vertex penalties. -/
def claimViolations (a : List (Nat × Nat)) (V : List Nat) (E : List Edge) : Int :=
  (V.map (claimPenalty a E)).sum

/-- Modelled from the spec: weight is the sum of the assigned values. -/
def claimWeight (a : List (Nat × Nat)) : Nat := (a.map Prod.snd).sum

/-! ### The bit-sequence decoder (lines 161-175 of qsolver.py) -/

/-- Python negative string indexing `s[-k]` (`none` models `IndexError`). -/
def bitAt (s : List Bool) (k : Nat) : Option Bool :=
  if 1 ≤ k ∧ k ≤ s.length then s[s.length - k]? else none

/-- The decoded 2-bit value of vertex number `i` (0-indexed in sorted order):
low bit at `s[-(2i+1)]`, high bit at `s[-(2i+2)]`, pair `11` clamped to 0,
any `IndexError` giving 0 (the per-vertex `try`/`except` of the source). -/
def pairVal (s : List Bool) (i : Nat) : Nat :=
  match bitAt s (2 * i + 1), bitAt s (2 * i + 2) with
  | some b0, some b1 =>
    if 2 * b1.toNat + b0.toNat = 3 then 0 else 2 * b1.toNat + b0.toNat
  | _, _ => 0

/-- `sorted(graph_data['vertices'], key=lambda x: x['id'])`. -/
def sortIds (V : List Nat) : List Nat := List.insertionSort (· ≤ ·) V

/-- The decoding loop `for i, v_id in enumerate(v_ids)`. -/
def decodeGo (s : List Bool) : Nat → List Nat → List (Nat × Nat) →
    List (Nat × Nat)
  | _, [], a => a
  | i, v :: vs, a => decodeGo s (i + 1) vs (dset a v (pairVal s i))

/-- Decode a bit-sequence into a candidate assignment over the graph's
vertices in ascending identifier order. -/
def decodeA (V : List Nat) (s : List Bool) : List (Nat × Nat) :=
  decodeGo s 0 (sortIds V) []

/-! ### The sample selector (lines 157-186 of qsolver.py) -/

/-- The combined ranking score `violations * 100 + weight`. -/
def combined (V : List Nat) (E : List Edge) (a : List (Nat × Nat)) : Int :=
  (evaluate_solution a V E).2.2 * 100 + ((evaluate_solution a V E).2.1 : Int)

/-- The post-processing loop over the sampler's counts: skip counts below 5,
decode and evaluate the rest, keep the lowest combined score (first seen on
ties). The state is `(best_qc_assignment, best_qc_score)`, with `none`
standing for the initial `float('inf')`. -/
def selectorLoop (V : List Nat) (E : List Edge) :
    List (List Bool × Nat) → List (Nat × Nat) × Option Int →
      List (Nat × Nat) × Option Int
  | [], st => st
  | (bits, count) :: rest, st =>
    if count < 5 then selectorLoop V E rest st
    else
      match st.2 with
      | none =>
        selectorLoop V E rest (decodeA V bits, some (combined V E (decodeA V bits)))
      | some s0 =>
        if combined V E (decodeA V bits) < s0 then
          selectorLoop V E rest (decodeA V bits, some (combined V E (decodeA V bits)))
        else selectorLoop V E rest st

/-- The selector run from the empty initial state. -/
def selectBest (V : List Nat) (E : List Edge) (samples : List (List Bool × Nat)) :
    List (Nat × Nat) × Option Int :=
  selectorLoop V E samples ([], none)

/-! ### The greedy repair engine (lines 194-255 of qsolver.py) -/

/-- `{v['id']: 0 for v in graph_data['vertices']}`. -/
def initA (V : List Nat) : List (Nat × Nat) := V.foldl (fun a v => dset a v 0) []

/-- The neighbor loop of the local violation check (lines 217-220); a bare
index `greedy_assignment[n['id']]` raises `KeyError` on a missing key,
modelled by `none`. -/
def nbCheck (a : List (Nat × Nat)) (val : Nat) :
    List (Nat × Int) → Bool × Int → Option (Bool × Int)
  | [], st => some st
  | n :: ns, (strong, defense) =>
    match dget a n.1 with
    | none => none
    | some n_val =>
      nbCheck a val ns
        (strong || (val == 0 && n_val == 2 && n.2 == 1),
         defense + (n_val : Int) * n.2)

/-- The local per-vertex violation test of lines 208-223. -/
def checkNode (a : List (Nat × Nat)) (E : List Edge) (v_id : Nat) : Option Bool :=
  match dget a v_id with
  | none => none
  | some val =>
    match nbCheck a val (get_neighbors v_id E) (false, (val : Int)) with
    | none => none
    | some (strong, defense) =>
      some ((val == 0 && !strong) || decide (defense < 1))

/-- Build `violated_nodes` in vertex order. -/
def violatedScan (a : List (Nat × Nat)) (E : List Edge) :
    List Nat → Option (List Nat)
  | [] => some []
  | v :: vs =>
    match checkNode a E v with
    | none => none
    | some b =>
      match violatedScan a E vs with
      | none => none
      | some rest => some (if b then v :: rest else rest)

/-- The best-upgrade scan over a violated vertex's neighbors (lines 232-244):
state `(max_gain, best_cand)`, initial `(-1, none)` (for `best_cand = -1`). -/
def scanCands (V : List Nat) (E : List Edge) (a : List (Nat × Nat))
    (c_viol : Int) : List (Nat × Int) → Int × Option Nat →
      Option (Int × Option Nat)
  | [], st => some st
  | n :: ns, (maxGain, best) =>
    if n.2 == 1 then
      match dget a n.1 with
      | none => none
      | some cur =>
        if cur < 2 then
          if c_viol - (evaluate_solution (dset a n.1 2) V E).2.2 > maxGain then
            scanCands V E a c_viol ns
              (c_viol - (evaluate_solution (dset a n.1 2) V E).2.2, some n.1)
          else scanCands V E a c_viol ns (maxGain, best)
        else scanCands V E a c_viol ns (maxGain, best)
    else scanCands V E a c_viol ns (maxGain, best)

/-- The fix loop over the violated vertices (lines 226-255): `some none`
means no change was made in this iteration, `some (some a2)` commits one
single upgrade and breaks, `none` models a `KeyError`. -/
def tryFix (V : List Nat) (E : List Edge) (a : List (Nat × Nat))
    (c_viol : Int) : List Nat → Option (Option (List (Nat × Nat)))
  | [] => some none
  | v :: rest =>
    match scanCands V E a c_viol (get_neighbors v E) (-1, none) with
    | none => none
    | some (maxGain, best) =>
      match best with
      | some b =>
        if maxGain > 0 then some (some (dset a b 2))
        else
          match dget a v with
          | none => none
          | some cur =>
            if cur < 2 then some (some (dset a v 2))
            else tryFix V E a c_viol rest
      | none =>
        match dget a v with
        | none => none
        | some cur =>
          if cur < 2 then some (some (dset a v 2))
          else tryFix V E a c_viol rest

/-- The `while changed and iterations < 100` loop (lines 196-255); the fuel
is the number of remaining iterations. -/
def greedyLoop (V : List Nat) (E : List Edge) :
    Nat → List (Nat × Nat) → Option (List (Nat × Nat))
  | 0, a => some a
  | fuel + 1, a =>
    if (evaluate_solution a V E).1 then some a
    else
      match violatedScan a E V with
      | none => none
      | some violated =>
        match tryFix V E a (evaluate_solution a V E).2.2 violated with
        | none => none
        | some none => some a
        | some (some a2) => greedyLoop V E fuel a2

/-- The greedy repair engine: all-zero start, iteration cap 100. -/
def greedyRepair (V : List Nat) (E : List Edge) : Option (List (Nat × Nat)) :=
  greedyLoop V E 100 (initA V)

/-! ### The weight reduction pass (lines 259-269 of qsolver.py) -/

/-- One tentative decrement: if the vertex value is positive, decrement,
re-evaluate, and revert unless the result is valid. -/
def reduceVertex (V : List Nat) (E : List Edge) (a : List (Nat × Nat))
    (v : Nat) : Option (List (Nat × Nat)) :=
  match dget a v with
  | none => none
  | some curr =>
    if curr > 0 then
      if (evaluate_solution (dset a v (curr - 1)) V E).1 then
        some (dset a v (curr - 1))
      else some a
    else some a

/-- One pass of the reduction loop over the vertex list. -/
def reduceGo (V : List Nat) (E : List Edge) :
    List Nat → List (Nat × Nat) → Option (List (Nat × Nat))
  | [], a => some a
  | v :: vs, a =>
    match reduceVertex V E a v with
    | none => none
    | some a2 => reduceGo V E vs a2

/-- `for _ in range(3)`: three reduction passes. -/
def reducePass (V : List Nat) (E : List Edge) (a : List (Nat × Nat)) :
    Option (List (Nat × Nat)) :=
  match reduceGo V E V a with
  | none => none
  | some a1 =>
    match reduceGo V E V a1 with
    | none => none
    | some a2 => reduceGo V E V a2

/-! ### The hybrid arbitration tail of `run_vqe_on_ibm` -/

/-- The classical branch inside the `try` block: greedy repair, reduction,
final score; `none` models any exception caught at line 281. -/
def classicalBranch (V : List Nat) (E : List Edge) :
    Option (List (Nat × Nat) × Int) :=
  match greedyRepair V E with
  | none => none
  | some a =>
    match reducePass V E a with
    | none => none
    | some a2 => some (a2, combined V E a2)

/-- The assignment `run_vqe_on_ibm` finally returns, as a function of the
graph and the sampler's counts (lines 157-290). -/
def pipeline (V : List Nat) (E : List Edge)
    (samples : List (List Bool × Nat)) : List (Nat × Nat) :=
  match classicalBranch V E with
  | none => (selectBest V E samples).1
  | some (ca, cs) =>
    match (selectBest V E samples).2 with
    | none => ca
    | some q => if cs < q then ca else (selectBest V E samples).1

/-- The only graph-dependent check before any sampling or evaluation
(lines 100-107): `num_qubits = 2 * |V|` may not exceed 127. No other
property of the input graph is validated anywhere in the solver. -/
def solverPrecheck (V : List Nat) : Option String :=
  if V.length * 2 > 127 then some "Graph too large (max 63 vertices)." else none

/-- Every edge endpoint names a vertex of the graph. -/
def WFGraph (V : List Nat) (E : List Edge) : Prop :=
  ∀ e ∈ E, e.source ∈ V ∧ e.target ∈ V

/-! ### Concrete instances used by counterexamples and witnesses -/

/-- The complete graph on 8 vertices with every edge of sign -1. -/
def vK8 : List Nat := [0, 1, 2, 3, 4, 5, 6, 7]

def eK8 : List Edge :=
  (List.range 8).foldr (fun i acc =>
    (List.range i).foldr (fun j acc2 => ⟨j, i, -1⟩ :: acc2) acc) []

def aAllTwo : List (Nat × Nat) :=
  [(0, 2), (1, 2), (2, 2), (3, 2), (4, 2), (5, 2), (6, 2), (7, 2)]

/-- A 613-vertex graph: a three-vertex gadget 0-1 (sign +1), 0-2 (sign -1)
plus 610 isolated vertices. -/
def bigV : List Nat := List.range 613

def bigE : List Edge := [⟨0, 1, 1⟩, ⟨0, 2, -1⟩]

/-- Bit-sequence decoding to vertex 0 at 0, vertices 1 and 2 at 2, and every
isolated vertex at 1 (6 violations, weight 614, combined score 1214). -/
def bitsX : List Bool :=
  (List.replicate 610 [false, true]).flatten
    ++ [true, false, true, false, false, false]

/-- Bit-sequence decoding to vertex 0 at 1, vertices 1 and 2 at 2, and every
isolated vertex at 2 (valid, weight 1225, combined score 1225). -/
def bitsY : List Bool :=
  (List.replicate 610 [true, false]).flatten
    ++ [true, false, true, false, false, true]

def samplesBig : List (List Bool × Nat) := [(bitsX, 100), (bitsY, 100)]

/-- The value `bitsX` decodes to at vertex `i` (closed form). -/
def fX : Nat → Nat := fun i => if i = 0 then 0 else if i < 3 then 2 else 1

/-- The value `bitsY` decodes to at vertex `i` (closed form). -/
def fY : Nat → Nat := fun i => if i = 0 then 1 else 2

/-- Closed form of `decodeA bigV bitsX`. -/
def aX : List (Nat × Nat) := (List.range 613).map (fun i => (i, fX i))

/-- Closed form of `decodeA bigV bitsY`. -/
def aY : List (Nat × Nat) := (List.range 613).map (fun i => (i, fY i))

/-- A two-vertex graph with one positive edge. -/
def vPair : List Nat := [0, 1]

def ePair : List Edge := [⟨0, 1, 1⟩]

/-- A single vertex with a dangling edge to a vertex that does not exist. -/
def vSolo : List Nat := [0]

def eDangle : List Edge := [⟨0, 1, 1⟩]

/-! ### Theorems -/

theorem nbFold_eq (a : List (Nat × Nat)) (val : Nat) :
    ∀ (ns : List (Nat × Int)) (d : Int) (s : Bool),
      ns.foldl (nbStep a val) (d, s)
        = (d + (ns.map (fun n => (aget a n.1 : Int) * n.2)).sum,
           s || ((val == 0) && ns.any (fun n => aget a n.1 == 2 && n.2 == 1))) := by
  intro ns
  induction ns with
  | nil => intro d s; simp
  | cons n ns ih =>
    intro d s
    simp only [List.foldl_cons, nbStep, List.map_cons, List.sum_cons, List.any_cons]
    rw [ih]
    rw [Prod.mk.injEq]
    constructor
    · ring
    · rw [Bool.and_or_distrib_left, Bool.or_assoc, Bool.and_assoc]

theorem ds_fst (a : List (Nat × Nat)) (E : List Edge) (v : Nat) :
    ((get_neighbors v E).foldl (nbStep a (aget a v)) ((aget a v : Int), false)).1
      = defenseScore a E v := by
  rw [nbFold_eq]
  rfl

theorem ds_snd (a : List (Nat × Nat)) (E : List Edge) (v : Nat) :
    ((get_neighbors v E).foldl (nbStep a (aget a v)) ((aget a v : Int), false)).2
      = ((aget a v == 0) && strongNb a E v) := by
  rw [nbFold_eq]
  exact Bool.false_or _

theorem evalVertex_eq (a : List (Nat × Nat)) (E : List Edge) (acc : Int)
    (v : Nat) : evalVertex a E acc v = acc + claimPenalty a E v := by
  unfold evalVertex
  dsimp only
  rw [ds_fst, ds_snd]
  unfold claimPenalty
  by_cases hd : defenseScore a E v < 1
  · rw [if_pos hd, if_pos hd,
      abs_of_pos (show (0 : Int) < 1 - defenseScore a E v by omega)]
    cases hb : (aget a v == 0) with
    | false =>
      have hb' : ¬ aget a v = 0 := by simpa using hb
      rw [if_neg (show ¬ (aget a v = 0 ∧ strongNb a E v = false) from
            fun h => hb' h.1)]
      simp only [Bool.false_and]
      rw [if_neg (show ¬ ((false : Bool) = true) by decide)]
      omega
    | true =>
      have hb' : aget a v = 0 := by simpa using hb
      cases hs : strongNb a E v with
      | false =>
        rw [if_pos (show aget a v = 0 ∧ false = false from ⟨hb', rfl⟩)]
        simp only [Bool.and_false, Bool.not_false, Bool.true_and]
        rw [if_pos trivial]
        omega
      | true =>
        rw [if_neg (show ¬ (aget a v = 0 ∧ true = false) from
              fun h => Bool.noConfusion h.2)]
        simp only [Bool.true_and, Bool.not_true, Bool.and_false]
        rw [if_neg (show ¬ ((false : Bool) = true) by decide)]
        omega
  · rw [if_neg hd, if_neg hd]
    cases hb : (aget a v == 0) with
    | false =>
      have hb' : ¬ aget a v = 0 := by simpa using hb
      rw [if_neg (show ¬ (aget a v = 0 ∧ strongNb a E v = false) from
            fun h => hb' h.1)]
      simp only [Bool.false_and]
      rw [if_neg (show ¬ ((false : Bool) = true) by decide)]
      omega
    | true =>
      have hb' : aget a v = 0 := by simpa using hb
      cases hs : strongNb a E v with
      | false =>
        rw [if_pos (show aget a v = 0 ∧ false = false from ⟨hb', rfl⟩)]
        simp only [Bool.and_false, Bool.not_false, Bool.true_and]
        rw [if_pos trivial]
        omega
      | true =>
        rw [if_neg (show ¬ (aget a v = 0 ∧ true = false) from
              fun h => Bool.noConfusion h.2)]
        simp only [Bool.true_and, Bool.not_true, Bool.and_false]
        rw [if_neg (show ¬ ((false : Bool) = true) by decide)]
        omega

theorem foldl_evalVertex (a : List (Nat × Nat)) (E : List Edge) :
    ∀ (V : List Nat) (acc : Int),
      V.foldl (evalVertex a E) acc = acc + (V.map (claimPenalty a E)).sum := by
  intro V
  induction V with
  | nil => intro acc; simp
  | cons v V ih =>
    intro acc
    simp only [List.foldl_cons, List.map_cons, List.sum_cons]
    rw [evalVertex_eq, ih]
    ring

/-- The evaluator, rewritten against the specification's formula. -/
theorem eval_eq_claim (a : List (Nat × Nat)) (V : List Nat) (E : List Edge) :
    evaluate_solution a V E
      = (claimViolations a V E == 0, claimWeight a, claimViolations a V E) := by
  unfold evaluate_solution claimViolations claimWeight weight
  rw [foldl_evalVertex]
  simp

/-! ### Association-list (Python dict) lemmas -/

theorem dget_dset_self (a : List (Nat × Nat)) (k v : Nat) :
    dget (dset a k v) k = some v := by
  induction a with
  | nil => simp [dget, dset]
  | cons p rest ih =>
    by_cases h : p.1 = k
    · simp [dset, h, dget]
    · simp [dset, h, dget, ih]

theorem dget_dset_ne (a : List (Nat × Nat)) (k v k' : Nat) (h : k' ≠ k) :
    dget (dset a k v) k' = dget a k' := by
  induction a with
  | nil => simp [dget, dset, fun hh => h hh.symm ∘ Eq.symm, (Ne.symm h)]
  | cons p rest ih =>
    by_cases hp : p.1 = k
    · simp [dset, hp, dget, Ne.symm h, hp ▸ (Ne.symm h)]
    · simp only [dset, if_neg hp, dget]
      by_cases hq : p.1 = k'
      · simp [hq]
      · simp [hq, ih]

theorem isSome_dget_dset (a : List (Nat × Nat)) (k v k' : Nat) :
    (dget (dset a k v) k').isSome = (k' = k ∨ (dget a k').isSome) := by
  by_cases h : k' = k
  · subst h; simp [dget_dset_self]
  · rw [dget_dset_ne a k v k' h]
    simp [h]

theorem length_dset_le (a : List (Nat × Nat)) (k v : Nat) :
    (dset a k v).length ≤ a.length + 1 := by
  induction a with
  | nil => simp [dset]
  | cons p rest ih =>
    by_cases h : p.1 = k
    · simp [dset, h]
    · simp only [dset, if_neg h, List.length_cons]
      omega

theorem mem_dset (a : List (Nat × Nat)) (k v : Nat) :
    ∀ p ∈ dset a k v, p = (k, v) ∨ p ∈ a := by
  induction a with
  | nil => simp [dset]
  | cons q rest ih =>
    intro p hp
    by_cases h : q.1 = k
    · rw [dset, if_pos h] at hp
      rcases List.mem_cons.mp hp with h1 | h1
      · exact Or.inl h1
      · exact Or.inr (List.mem_cons_of_mem _ h1)
    · rw [dset, if_neg h] at hp
      rcases List.mem_cons.mp hp with h1 | h1
      · exact Or.inr (h1 ▸ List.mem_cons_self _ _)
      · rcases ih p h1 with h2 | h2
        · exact Or.inl h2
        · exact Or.inr (List.mem_cons_of_mem _ h2)

theorem dget_mem (a : List (Nat × Nat)) (k v : Nat) (h : dget a k = some v) :
    (k, v) ∈ a := by
  induction a with
  | nil => simp [dget] at h
  | cons p rest ih =>
    rw [dget] at h
    by_cases hp : p.1 = k
    · rw [if_pos hp] at h
      have hpv : p = (k, v) := by
        cases p
        injection h with h
        simp_all
      rw [hpv]
      exact List.mem_cons_self _ _
    · rw [if_neg hp] at h
      exact List.mem_cons_of_mem _ (ih h)

theorem weight_dset (a : List (Nat × Nat)) (k v c : Nat)
    (h : dget a k = some c) : weight (dset a k v) + c = weight a + v := by
  induction a with
  | nil => simp [dget] at h
  | cons p rest ih =>
    rw [dget] at h
    by_cases hp : p.1 = k
    · rw [if_pos hp] at h
      injection h with h
      rw [dset, if_pos hp]
      simp only [weight, List.map_cons, List.sum_cons]
      omega
    · rw [if_neg hp] at h
      have hih := ih h
      rw [dset, if_neg hp]
      simp only [weight, List.map_cons, List.sum_cons] at hih ⊢
      omega

/-! ### Sign and lower-bound facts about the violation score -/

theorem claimPenalty_cases (a : List (Nat × Nat)) (E : List Edge) (v : Nat) :
    claimPenalty a E v = 0 ∨ 6 ≤ claimPenalty a E v := by
  unfold claimPenalty
  by_cases h1 : aget a v = 0 ∧ strongNb a E v = false <;>
    by_cases h2 : defenseScore a E v < 1 <;>
      simp [h1, h2] <;> omega

theorem sum_zero_or_ge (l : List Int) (h : ∀ x ∈ l, x = 0 ∨ 6 ≤ x) :
    l.sum = 0 ∨ 6 ≤ l.sum := by
  induction l with
  | nil => simp
  | cons x xs ih =>
    have hx := h x (List.mem_cons_self _ _)
    have hxs := ih (fun y hy => h y (List.mem_cons_of_mem _ hy))
    simp only [List.sum_cons]
    omega

theorem claimViolations_cases (a : List (Nat × Nat)) (V : List Nat)
    (E : List Edge) : claimViolations a V E = 0 ∨ 6 ≤ claimViolations a V E := by
  unfold claimViolations
  apply sum_zero_or_ge
  intro x hx
  rcases List.mem_map.mp hx with ⟨v, _, rfl⟩
  exact claimPenalty_cases a E v

theorem claimViolations_nonneg (a : List (Nat × Nat)) (V : List Nat)
    (E : List Edge) : 0 ≤ claimViolations a V E := by
  rcases claimViolations_cases a V E with h | h <;> omega

theorem decodeGo_not_mem (s : List Bool) (k : Nat) :
    ∀ (l : List Nat) (i : Nat) (a : List (Nat × Nat)), k ∉ l →
      dget (decodeGo s i l a) k = dget a k := by
  intro l
  induction l with
  | nil => intro i a _; rfl
  | cons v vs ih =>
    intro i a hk
    rw [decodeGo, ih (i + 1) _ (fun h => hk (List.mem_cons_of_mem _ h))]
    exact dget_dset_ne a v (pairVal s i) k (fun h => hk (h ▸ List.mem_cons_self _ _))

theorem decodeGo_get (s : List Bool) :
    ∀ (l : List Nat) (i0 : Nat) (a : List (Nat × Nat)), l.Nodup →
      ∀ (j : Nat) (hj : j < l.length),
        dget (decodeGo s i0 l a) (l.get ⟨j, hj⟩) = some (pairVal s (i0 + j)) := by
  intro l
  induction l with
  | nil => intro i0 a _ j hj; simp at hj
  | cons v vs ih =>
    intro i0 a hnd j hj
    rcases List.nodup_cons.mp hnd with ⟨hv, hnd'⟩
    cases j with
    | zero =>
      rw [decodeGo]
      show dget (decodeGo s (i0 + 1) vs (dset a v (pairVal s i0))) v = _
      rw [decodeGo_not_mem s v vs (i0 + 1) _ hv, dget_dset_self]
      rw [Nat.add_zero]
    | succ j' =>
      rw [decodeGo]
      show dget (decodeGo s (i0 + 1) vs (dset a v (pairVal s i0)))
        (vs.get ⟨j', Nat.lt_of_succ_lt_succ hj⟩) = _
      rw [ih (i0 + 1) _ hnd' j' (Nat.lt_of_succ_lt_succ hj),
        show i0 + 1 + j' = i0 + (j' + 1) from by omega]

/-! ### Selector lemmas -/

theorem eval_valid_iff (a : List (Nat × Nat)) (V : List Nat) (E : List Edge) :
    (evaluate_solution a V E).1 = true ↔ claimViolations a V E = 0 := by
  rw [eval_eq_claim]
  simp

theorem combined_eq (V : List Nat) (E : List Edge) (a : List (Nat × Nat)) :
    combined V E a = claimViolations a V E * 100 + (claimWeight a : Int) := by
  unfold combined
  rw [eval_eq_claim]

theorem selectorLoop_inv (V : List Nat) (E : List Edge) :
    ∀ (samples : List (List Bool × Nat)) (A : List (Nat × Nat)) (S : Option Int),
      (∀ t, S = some t → t = combined V E A) →
      ∀ t, (selectorLoop V E samples (A, S)).2 = some t →
        t = combined V E (selectorLoop V E samples (A, S)).1 := by
  intro samples
  induction samples with
  | nil => intro A S h; exact h
  | cons b rest ih =>
    intro A S h
    obtain ⟨bits, count⟩ := b
    rw [selectorLoop]
    dsimp only
    by_cases hc : count < 5
    · rw [if_pos hc]; exact ih A S h
    · rw [if_neg hc]
      cases S with
      | none =>
        exact ih _ _ (fun t ht => (by simpa using ht : _ = t).symm)
      | some s0 =>
        dsimp only
        by_cases hlt : combined V E (decodeA V bits) < s0
        · rw [if_pos hlt]
          exact ih _ _ (fun t ht => (by simpa using ht : _ = t).symm)
        · rw [if_neg hlt]; exact ih A (some s0) h

theorem selectorLoop_mono (V : List Nat) (E : List Edge) :
    ∀ (samples : List (List Bool × Nat)) (A : List (Nat × Nat)) (s : Int),
      ∃ t, (selectorLoop V E samples (A, some s)).2 = some t ∧ t ≤ s := by
  intro samples
  induction samples with
  | nil => intro A s; exact ⟨s, rfl, le_refl s⟩
  | cons b rest ih =>
    intro A s
    obtain ⟨bits, count⟩ := b
    rw [selectorLoop]
    dsimp only
    by_cases hc : count < 5
    · rw [if_pos hc]; exact ih A s
    · rw [if_neg hc]
      by_cases hlt : combined V E (decodeA V bits) < s
      · rw [if_pos hlt]
        obtain ⟨t, ht, hle⟩ := ih (decodeA V bits) (combined V E (decodeA V bits))
        exact ⟨t, ht, le_trans hle (le_of_lt hlt)⟩
      · rw [if_neg hlt]; exact ih A s

theorem selectorLoop_le (V : List Nat) (E : List Edge) :
    ∀ (samples : List (List Bool × Nat)) (A : List (Nat × Nat)) (S : Option Int)
      (b : List Bool × Nat), b ∈ samples → ¬ b.2 < 5 →
      ∃ t, (selectorLoop V E samples (A, S)).2 = some t ∧
        t ≤ combined V E (decodeA V b.1) := by
  intro samples
  induction samples with
  | nil => intro A S b hb; exact absurd hb (by simp)
  | cons hd rest ih =>
    intro A S b hb hcount
    obtain ⟨bits, count⟩ := hd
    rw [selectorLoop]
    dsimp only
    rcases List.mem_cons.mp hb with rfl | hmem
    · rw [if_neg hcount]
      cases S with
      | none => exact selectorLoop_mono V E rest _ _
      | some s0 =>
        dsimp only
        by_cases hlt : combined V E (decodeA V bits) < s0
        · rw [if_pos hlt]
          exact selectorLoop_mono V E rest _ _
        · rw [if_neg hlt]
          obtain ⟨t, ht, hle⟩ := selectorLoop_mono V E rest A s0
          exact ⟨t, ht, le_trans hle (not_lt.mp hlt)⟩
    · by_cases hc : count < 5
      · rw [if_pos hc]; exact ih A S b hmem hcount
      · rw [if_neg hc]
        cases S with
        | none => exact ih _ _ b hmem hcount
        | some s0 =>
          dsimp only
          by_cases hlt : combined V E (decodeA V bits) < s0
          · rw [if_pos hlt]; exact ih _ _ b hmem hcount
          · rw [if_neg hlt]; exact ih A (some s0) b hmem hcount

/-! ### Decoded-assignment bounds -/

theorem pairVal_le_two (s : List Bool) (i : Nat) : pairVal s i ≤ 2 := by
  unfold pairVal
  cases bitAt s (2 * i + 1) with
  | none => simp
  | some b0 =>
    cases bitAt s (2 * i + 2) with
    | none => simp
    | some b1 => cases b0 <;> cases b1 <;> simp

theorem bound2_dset (a : List (Nat × Nat)) (k v : Nat)
    (h : ∀ p ∈ a, p.2 ≤ 2) (hv : v ≤ 2) : ∀ p ∈ dset a k v, p.2 ≤ 2 := by
  intro p hp
  rcases mem_dset a k v p hp with h1 | h1
  · rw [h1]; exact hv
  · exact h p h1

theorem decodeGo_bound2 (s : List Bool) :
    ∀ (l : List Nat) (i : Nat) (a : List (Nat × Nat)),
      (∀ p ∈ a, p.2 ≤ 2) → ∀ p ∈ decodeGo s i l a, p.2 ≤ 2 := by
  intro l
  induction l with
  | nil => intro i a h; exact h
  | cons v vs ih =>
    intro i a h
    exact ih (i + 1) _ (bound2_dset a v (pairVal s i) h (pairVal_le_two s i))

theorem decodeGo_length (s : List Bool) :
    ∀ (l : List Nat) (i : Nat) (a : List (Nat × Nat)),
      (decodeGo s i l a).length ≤ a.length + l.length := by
  intro l
  induction l with
  | nil => intro i a; simp [decodeGo]
  | cons v vs ih =>
    intro i a
    calc (decodeGo s (i + 1) vs (dset a v (pairVal s i))).length
        ≤ (dset a v (pairVal s i)).length + vs.length := ih (i + 1) _
      _ ≤ a.length + 1 + vs.length := by
          have := length_dset_le a v (pairVal s i); omega
      _ = a.length + (v :: vs).length := by simp; omega

theorem weight_le_two_mul (a : List (Nat × Nat))
    (h : ∀ p ∈ a, p.2 ≤ 2) : weight a ≤ 2 * a.length := by
  induction a with
  | nil => simp [weight]
  | cons p rest ih =>
    have hp := h p (List.mem_cons_self _ _)
    have hr := ih (fun q hq => h q (List.mem_cons_of_mem _ hq))
    simp only [weight, List.map_cons, List.sum_cons, List.length_cons] at *
    omega

theorem decodeA_bound2 (V : List Nat) (s : List Bool) :
    ∀ p ∈ decodeA V s, p.2 ≤ 2 :=
  decodeGo_bound2 s (sortIds V) 0 [] (by simp)

theorem length_sortIds (V : List Nat) : (sortIds V).length = V.length :=
  (List.perm_insertionSort (· ≤ ·) V).length_eq

theorem weight_decodeA_le (V : List Nat) (s : List Bool) :
    weight (decodeA V s) ≤ 2 * V.length := by
  have h1 := weight_le_two_mul (decodeA V s) (decodeA_bound2 V s)
  have h2 := decodeGo_length s (sortIds V) 0 []
  unfold decodeA at *
  have := length_sortIds V
  simp only [List.length_nil] at h2
  omega

/-! ### Greedy repair engine lemmas -/

theorem neighbors_mem (V : List Nat) (v : Nat) :
    ∀ (E : List Edge), (∀ e ∈ E, e.source ∈ V ∧ e.target ∈ V) →
      ∀ n ∈ get_neighbors v E, n.1 ∈ V := by
  intro E
  induction E with
  | nil => intro _ n hn; simp [get_neighbors] at hn
  | cons e es ih =>
    intro h n hn
    have he := h e (List.mem_cons_self _ _)
    have hes := fun e' he' => h e' (List.mem_cons_of_mem _ he')
    rw [get_neighbors] at hn
    by_cases h1 : e.source = v
    · rw [if_pos h1] at hn
      rcases List.mem_cons.mp hn with heq | hn2
      · rw [heq]; exact he.2
      · exact ih hes n hn2
    · rw [if_neg h1] at hn
      by_cases h2 : e.target = v
      · rw [if_pos h2] at hn
        rcases List.mem_cons.mp hn with heq | hn2
        · rw [heq]; exact he.1
        · exact ih hes n hn2
      · rw [if_neg h2] at hn
        exact ih hes n hn

theorem nbCheck_ok (a : List (Nat × Nat)) (val : Nat) :
    ∀ (ns : List (Nat × Int)) (st : Bool × Int),
      (∀ n ∈ ns, (dget a n.1).isSome) →
      ∃ r, nbCheck a val ns st = some r := by
  intro ns
  induction ns with
  | nil => intro st _; exact ⟨st, rfl⟩
  | cons n rest ih =>
    intro st h
    obtain ⟨strong, defense⟩ := st
    have hn := h n (List.mem_cons_self _ _)
    rw [nbCheck]
    cases hg : dget a n.1 with
    | none => rw [hg] at hn; simp at hn
    | some n_val =>
      exact ih _ (fun m hm => h m (List.mem_cons_of_mem _ hm))

theorem checkNode_ok (a : List (Nat × Nat)) (E : List Edge) (v : Nat)
    (hv : (dget a v).isSome)
    (hns : ∀ n ∈ get_neighbors v E, (dget a n.1).isSome) :
    ∃ b, checkNode a E v = some b := by
  rw [checkNode]
  cases hg : dget a v with
  | none => rw [hg] at hv; simp at hv
  | some val =>
    dsimp only
    obtain ⟨⟨strong, defense⟩, hr⟩ :=
      nbCheck_ok a val (get_neighbors v E) (false, (val : Int)) hns
    rw [hr]
    exact ⟨_, rfl⟩

theorem violatedScan_ok (a : List (Nat × Nat)) (E : List Edge) :
    ∀ (l : List Nat), (∀ v ∈ l, ∃ b, checkNode a E v = some b) →
      ∃ r, violatedScan a E l = some r ∧ ∀ v ∈ r, v ∈ l := by
  intro l
  induction l with
  | nil => exact fun _ => ⟨[], rfl, by simp⟩
  | cons v vs ih =>
    intro h
    obtain ⟨b, hb⟩ := h v (List.mem_cons_self _ _)
    obtain ⟨r, hr, hsub⟩ := ih (fun w hw => h w (List.mem_cons_of_mem _ hw))
    refine ⟨if b then v :: r else r, ?_, ?_⟩
    · rw [violatedScan, hb]
      dsimp only
      rw [hr]
    · intro w hw
      cases b with
      | true =>
        rw [if_pos rfl] at hw
        rcases List.mem_cons.mp hw with rfl | hw2
        · exact List.mem_cons_self _ _
        · exact List.mem_cons_of_mem _ (hsub w hw2)
      | false =>
        rw [if_neg (by decide)] at hw
        exact List.mem_cons_of_mem _ (hsub w hw)

theorem scanCands_ok (V : List Nat) (E : List Edge) (a : List (Nat × Nat))
    (c : Int) (P : Nat → Prop) :
    ∀ (ns : List (Nat × Int)) (st : Int × Option Nat),
      (∀ n ∈ ns, (dget a n.1).isSome) →
      (∀ n ∈ ns, P n.1) →
      (∀ k, st.2 = some k → P k) →
      ∃ r, scanCands V E a c ns st = some r ∧ ∀ k, r.2 = some k → P k := by
  intro ns
  induction ns with
  | nil => intro st _ _ hst; exact ⟨st, rfl, hst⟩
  | cons n rest ih =>
    intro st hdom hP hst
    obtain ⟨maxGain, best⟩ := st
    have hdom' := fun m hm => hdom m (List.mem_cons_of_mem _ hm)
    have hP' := fun m hm => hP m (List.mem_cons_of_mem _ hm)
    rw [scanCands]
    by_cases hsign : n.2 == 1
    · rw [if_pos hsign]
      cases hg : dget a n.1 with
      | none =>
        have := hdom n (List.mem_cons_self _ _)
        rw [hg] at this
        simp at this
      | some cur =>
        dsimp only
        by_cases hcur : cur < 2
        · rw [if_pos hcur]
          by_cases hgain :
              c - (evaluate_solution (dset a n.1 2) V E).2.2 > maxGain
          · rw [if_pos hgain]
            refine ih _ hdom' hP' ?_
            intro k hk
            simp only [Option.some.injEq] at hk
            exact hk ▸ hP n (List.mem_cons_self _ _)
          · rw [if_neg hgain]
            exact ih _ hdom' hP' hst
        · rw [if_neg hcur]
          exact ih _ hdom' hP' hst
    · rw [if_neg hsign]
      exact ih _ hdom' hP' hst

theorem tryFix_ok (V : List Nat) (E : List Edge) (a : List (Nat × Nat))
    (c : Int) (hwf : WFGraph V E)
    (hdom : ∀ v ∈ V, (dget a v).isSome) :
    ∀ (l : List Nat), (∀ v ∈ l, v ∈ V) →
      ∃ r, tryFix V E a c l = some r ∧
        ∀ a2, r = some a2 →
          (∀ k, (dget a k).isSome → (dget a2 k).isSome) := by
  intro l
  induction l with
  | nil => exact fun _ => ⟨none, rfl, by intro a2 h; cases h⟩
  | cons v rest ih =>
    intro hvl
    have hv : v ∈ V := hvl v (List.mem_cons_self _ _)
    have hnbdom : ∀ n ∈ get_neighbors v E, (dget a n.1).isSome :=
      fun n hn => hdom n.1 (neighbors_mem V v E hwf n hn)
    obtain ⟨⟨mg, best⟩, hscan, hbestP⟩ :=
      scanCands_ok V E a c (fun _ => True) (get_neighbors v E) (-1, none)
        hnbdom (fun _ _ => trivial) (fun k hk => by cases hk)
    rw [tryFix, hscan]
    dsimp only
    have hfall :
        ∃ r, (match dget a v with
          | none => none
          | some cur =>
            if cur < 2 then some (some (dset a v 2))
            else tryFix V E a c rest) = some r ∧
          ∀ a2, r = some a2 → (∀ k, (dget a k).isSome → (dget a2 k).isSome) := by
      cases hg : dget a v with
      | none =>
        have := hdom v hv
        rw [hg] at this
        simp at this
      | some cur =>
        dsimp only
        by_cases hcur : cur < 2
        · refine ⟨some (dset a v 2), by rw [if_pos hcur], ?_⟩
          intro a2 h2 k hk
          cases h2
          rw [isSome_dget_dset]
          exact Or.inr hk
        · obtain ⟨r, hr, hrP⟩ := ih (fun w hw => hvl w (List.mem_cons_of_mem _ hw))
          exact ⟨r, by rw [if_neg hcur]; exact hr, hrP⟩
    cases best with
    | some b =>
      dsimp only
      by_cases hmg : mg > 0
      · rw [if_pos hmg]
        refine ⟨some (dset a b 2), rfl, ?_⟩
        intro a2 h2 k hk
        cases h2
        rw [isSome_dget_dset]
        exact Or.inr hk
      · rw [if_neg hmg]
        exact hfall
    | none =>
      dsimp only
      exact hfall

theorem greedyLoop_ok (V : List Nat) (E : List Edge) (hwf : WFGraph V E) :
    ∀ (fuel : Nat) (a : List (Nat × Nat)),
      (∀ v ∈ V, (dget a v).isSome) →
      ∃ a2, greedyLoop V E fuel a = some a2 ∧ ∀ v ∈ V, (dget a2 v).isSome := by
  intro fuel
  induction fuel with
  | zero => intro a hdom; exact ⟨a, rfl, hdom⟩
  | succ n ih =>
    intro a hdom
    rw [greedyLoop]
    by_cases hval : (evaluate_solution a V E).1
    · rw [if_pos hval]; exact ⟨a, rfl, hdom⟩
    · rw [if_neg hval]
      have hcheck : ∀ v ∈ V, ∃ b, checkNode a E v = some b := by
        intro v hv
        exact checkNode_ok a E v (hdom v hv)
          (fun m hm => hdom m.1 (neighbors_mem V v E hwf m hm))
      obtain ⟨viol, hviol, hsub⟩ := violatedScan_ok a E V hcheck
      rw [hviol]
      dsimp only
      obtain ⟨r, hfix, hfixP⟩ :=
        tryFix_ok V E a (evaluate_solution a V E).2.2 hwf hdom viol hsub
      rw [hfix]
      cases r with
      | none => exact ⟨a, rfl, hdom⟩
      | some a2 =>
        dsimp only
        exact ih a2 (fun v hv => hfixP a2 rfl v (hdom v hv))

theorem tryFix_bound2 (V : List Nat) (E : List Edge) (a : List (Nat × Nat))
    (c : Int) :
    ∀ (l : List Nat) (a2 : List (Nat × Nat)),
      tryFix V E a c l = some (some a2) →
      (∀ p ∈ a, p.2 ≤ 2) → ∀ p ∈ a2, p.2 ≤ 2 := by
  intro l
  induction l with
  | nil =>
    intro a2 h
    rw [tryFix] at h
    simp at h
  | cons v rest ih =>
    intro a2 h hb
    rw [tryFix] at h
    cases hscan : scanCands V E a c (get_neighbors v E) (-1, none) with
    | none => rw [hscan] at h; cases h
    | some st =>
      obtain ⟨mg, best⟩ := st
      rw [hscan] at h
      dsimp only at h
      have hfall :
          (match dget a v with
            | none => none
            | some cur =>
              if cur < 2 then some (some (dset a v 2))
              else tryFix V E a c rest) = some (some a2) →
          ∀ p ∈ a2, p.2 ≤ 2 := by
        intro hm
        cases hg : dget a v with
        | none => rw [hg] at hm; cases hm
        | some cur =>
          rw [hg] at hm
          dsimp only at hm
          by_cases hcur : cur < 2
          · rw [if_pos hcur] at hm
            simp only [Option.some.injEq] at hm
            exact hm ▸ bound2_dset a v 2 hb (le_refl 2)
          · rw [if_neg hcur] at hm
            exact ih a2 hm hb
      cases best with
      | some b =>
        dsimp only at h
        by_cases hmg : mg > 0
        · rw [if_pos hmg] at h
          simp only [Option.some.injEq] at h
          exact h ▸ bound2_dset a b 2 hb (le_refl 2)
        · rw [if_neg hmg] at h
          exact hfall h
      | none =>
        dsimp only at h
        exact hfall h

theorem greedyLoop_bound2 (V : List Nat) (E : List Edge) :
    ∀ (fuel : Nat) (a a2 : List (Nat × Nat)),
      greedyLoop V E fuel a = some a2 →
      (∀ p ∈ a, p.2 ≤ 2) → ∀ p ∈ a2, p.2 ≤ 2 := by
  intro fuel
  induction fuel with
  | zero =>
    intro a a2 h hb
    rw [greedyLoop] at h
    simp only [Option.some.injEq] at h
    exact h ▸ hb
  | succ n ih =>
    intro a a2 h hb
    rw [greedyLoop] at h
    by_cases hval : (evaluate_solution a V E).1
    · rw [if_pos hval] at h
      simp only [Option.some.injEq] at h
      exact h ▸ hb
    · rw [if_neg hval] at h
      cases hviol : violatedScan a E V with
      | none => rw [hviol] at h; cases h
      | some viol =>
        rw [hviol] at h
        dsimp only at h
        cases hfix : tryFix V E a (evaluate_solution a V E).2.2 viol with
        | none => rw [hfix] at h; cases h
        | some r =>
          rw [hfix] at h
          cases r with
          | none =>
            dsimp only at h
            simp only [Option.some.injEq] at h
            exact h ▸ hb
          | some a3 =>
            dsimp only at h
            exact ih a3 a2 h (tryFix_bound2 V E a _ viol a3 hfix hb)

/-! ### Weight reduction pass lemmas -/

theorem reduceVertex_spec (V : List Nat) (E : List Edge)
    (a : List (Nat × Nat)) (v : Nat) (h : (dget a v).isSome) :
    ∃ a2, reduceVertex V E a v = some a2 ∧
      (∀ k, (dget a2 k).isSome ↔ (dget a k).isSome) ∧
      weight a2 ≤ weight a ∧
      ((evaluate_solution a V E).1 = true → (evaluate_solution a2 V E).1 = true) ∧
      ((∀ p ∈ a, p.2 ≤ 2) → (∀ p ∈ a2, p.2 ≤ 2)) := by
  cases hg : dget a v with
  | none => rw [hg] at h; simp at h
  | some curr =>
    rw [reduceVertex, hg]
    dsimp only
    by_cases hpos : curr > 0
    · rw [if_pos hpos]
      by_cases hv2 : (evaluate_solution (dset a v (curr - 1)) V E).1 = true
      · rw [if_pos hv2]
        refine ⟨dset a v (curr - 1), rfl, ?_, ?_, fun _ => hv2, ?_⟩
        · intro k
          rw [isSome_dget_dset]
          constructor
          · rintro (rfl | hk)
            · rw [hg]; rfl
            · exact hk
          · exact Or.inr
        · have := weight_dset a v (curr - 1) curr hg
          omega
        · intro hb
          refine bound2_dset a v (curr - 1) hb ?_
          have := hb (v, curr) (dget_mem a v curr hg)
          omega
      · rw [if_neg hv2]
        exact ⟨a, rfl, fun k => Iff.rfl, le_refl _, id, id⟩
    · rw [if_neg hpos]
      exact ⟨a, rfl, fun k => Iff.rfl, le_refl _, id, id⟩

theorem reduceGo_spec (V : List Nat) (E : List Edge) :
    ∀ (l : List Nat) (a : List (Nat × Nat)),
      (∀ v ∈ l, (dget a v).isSome) →
      ∃ a2, reduceGo V E l a = some a2 ∧
        (∀ k, (dget a2 k).isSome ↔ (dget a k).isSome) ∧
        weight a2 ≤ weight a ∧
        ((evaluate_solution a V E).1 = true →
          (evaluate_solution a2 V E).1 = true) ∧
        ((∀ p ∈ a, p.2 ≤ 2) → (∀ p ∈ a2, p.2 ≤ 2)) := by
  intro l
  induction l with
  | nil =>
    intro a _
    exact ⟨a, rfl, fun k => Iff.rfl, le_refl _, id, id⟩
  | cons v vs ih =>
    intro a hdom
    obtain ⟨a1, h1, hk1, hw1, hv1, hb1⟩ :=
      reduceVertex_spec V E a v (hdom v (List.mem_cons_self _ _))
    obtain ⟨a2, h2, hk2, hw2, hv2, hb2⟩ := ih a1
      (fun w hw => (hk1 w).mpr (hdom w (List.mem_cons_of_mem _ hw)))
    refine ⟨a2, ?_, ?_, ?_, ?_, ?_⟩
    · rw [reduceGo, h1]
      exact h2
    · exact fun k => (hk2 k).trans (hk1 k)
    · exact le_trans hw2 hw1
    · exact fun hv => hv2 (hv1 hv)
    · exact fun hb => hb2 (hb1 hb)

theorem reducePass_spec (V : List Nat) (E : List Edge) (a : List (Nat × Nat))
    (hdom : ∀ v ∈ V, (dget a v).isSome) :
    ∃ a2, reducePass V E a = some a2 ∧
      (∀ k, (dget a2 k).isSome ↔ (dget a k).isSome) ∧
      weight a2 ≤ weight a ∧
      ((evaluate_solution a V E).1 = true →
        (evaluate_solution a2 V E).1 = true) ∧
      ((∀ p ∈ a, p.2 ≤ 2) → (∀ p ∈ a2, p.2 ≤ 2)) := by
  obtain ⟨a1, h1, hk1, hw1, hv1, hb1⟩ := reduceGo_spec V E V a hdom
  obtain ⟨a2, h2, hk2, hw2, hv2, hb2⟩ := reduceGo_spec V E V a1
    (fun w hw => (hk1 w).mpr (hdom w hw))
  obtain ⟨a3, h3, hk3, hw3, hv3, hb3⟩ := reduceGo_spec V E V a2
    (fun w hw => (hk2 w).mpr ((hk1 w).mpr (hdom w hw)))
  refine ⟨a3, ?_, ?_, ?_, ?_, ?_⟩
  · rw [reducePass, h1]
    dsimp only
    rw [h2]
    exact h3
  · exact fun k => ((hk3 k).trans (hk2 k)).trans (hk1 k)
  · exact le_trans hw3 (le_trans hw2 hw1)
  · exact fun hv => hv3 (hv2 (hv1 hv))
  · exact fun hb => hb3 (hb2 (hb1 hb))

/-! ### Initial assignment lemmas -/

theorem fold_dset_dom :
    ∀ (l : List Nat) (a0 : List (Nat × Nat)) (v : Nat),
      v ∈ l ∨ (dget a0 v).isSome →
      (dget (l.foldl (fun a k => dset a k 0) a0) v).isSome := by
  intro l
  induction l with
  | nil =>
    intro a0 v h
    rcases h with h | h
    · simp at h
    · exact h
  | cons u us ih =>
    intro a0 v h
    rw [List.foldl_cons]
    refine ih (dset a0 u 0) v ?_
    rcases h with h | h
    · rcases List.mem_cons.mp h with rfl | h2
      · right; rw [dget_dset_self]; rfl
      · left; exact h2
    · right
      rw [isSome_dget_dset]
      exact Or.inr h

theorem initA_dom (V : List Nat) : ∀ v ∈ V, (dget (initA V) v).isSome :=
  fun v hv => fold_dset_dom V [] v (Or.inl hv)

theorem fold_dset_bound2 :
    ∀ (l : List Nat) (a0 : List (Nat × Nat)),
      (∀ p ∈ a0, p.2 ≤ 2) →
      ∀ p ∈ l.foldl (fun a k => dset a k 0) a0, p.2 ≤ 2 := by
  intro l
  induction l with
  | nil => intro a0 h; exact h
  | cons u us ih =>
    intro a0 h
    rw [List.foldl_cons]
    exact ih (dset a0 u 0) (bound2_dset a0 u 0 h (by omega))

theorem initA_bound2 (V : List Nat) : ∀ p ∈ initA V, p.2 ≤ 2 :=
  fold_dset_bound2 V [] (by simp)

/-! ### Bit-sequence index arithmetic -/

theorem bitAt_cons (x : Bool) (s : List Bool) (k : Nat) (h1 : 1 ≤ k)
    (h2 : k ≤ s.length) : bitAt (x :: s) k = bitAt s k := by
  unfold bitAt
  rw [if_pos ⟨h1, by simp; omega⟩, if_pos ⟨h1, h2⟩]
  have hidx : (x :: s).length - k = (s.length - k) + 1 := by
    simp
    omega
  rw [hidx, List.getElem?_cons_succ]

theorem bitAt_append_low (a b : List Bool) (k : Nat) (h1 : 1 ≤ k)
    (h2 : k ≤ b.length) : bitAt (a ++ b) k = bitAt b k := by
  induction a with
  | nil => rfl
  | cons x xs ih =>
    rw [List.cons_append, bitAt_cons x (xs ++ b) k h1 (by simp; omega)]
    exact ih

theorem bitAt_append_high (a b : List Bool) (k : Nat) (hlow : b.length < k)
    (hhigh : k ≤ a.length + b.length) :
    bitAt (a ++ b) k = bitAt a (k - b.length) := by
  unfold bitAt
  rw [if_pos ⟨by omega, by simp; omega⟩, if_pos ⟨by omega, by omega⟩]
  have hlt : (a ++ b).length - k < a.length := by simp; omega
  rw [List.getElem?_append, if_pos hlt]
  have hidx : (a ++ b).length - k = a.length - (k - b.length) := by simp; omega
  rw [hidx]

theorem length_flatten_rep (x y : Bool) :
    ∀ m : Nat, ((List.replicate m [x, y]).flatten).length = 2 * m := by
  intro m
  induction m with
  | zero => rfl
  | succ k ih =>
    rw [List.replicate_succ, List.flatten_cons]
    simp only [List.length_append, ih]
    simp
    omega

theorem bitAt_flatten_rep (x y : Bool) :
    ∀ (m k : Nat), 1 ≤ k → k ≤ 2 * m →
      bitAt ((List.replicate m [x, y]).flatten) k
        = some (if k % 2 = 1 then y else x) := by
  intro m
  induction m with
  | zero => intro k h1 h2; omega
  | succ mm ih =>
    intro k h1 h2
    rw [List.replicate_succ, List.flatten_cons]
    by_cases hk : k ≤ 2 * mm
    · rw [bitAt_append_low [x, y] _ k h1 (by rw [length_flatten_rep]; omega)]
      exact ih k h1 hk
    · rw [bitAt_append_high [x, y] _ k
        (by rw [length_flatten_rep]; omega)
        (by rw [length_flatten_rep]; simp; omega)]
      rw [length_flatten_rep]
      have : k = 2 * mm + 1 ∨ k = 2 * mm + 2 := by omega
      rcases this with rfl | rfl
      · rw [show 2 * mm + 1 - 2 * mm = 1 from by omega,
          if_pos (show (2 * mm + 1) % 2 = 1 from by omega)]
        rfl
      · rw [show 2 * mm + 2 - 2 * mm = 2 from by omega,
          if_neg (show ¬ (2 * mm + 2) % 2 = 1 from by omega)]
        rfl

/-! ### Closed form of the decoder on a sorted duplicate-free range -/

theorem dget_append_left_none (a b : List (Nat × Nat)) (k : Nat)
    (h : dget a k = none) : dget (a ++ b) k = dget b k := by
  induction a with
  | nil => rfl
  | cons p rest ih =>
    rw [dget] at h
    by_cases hp : p.1 = k
    · rw [if_pos hp] at h; cases h
    · rw [if_neg hp] at h
      rw [List.cons_append, dget, if_neg hp]
      exact ih h

theorem dset_fresh (a : List (Nat × Nat)) (k v : Nat) (h : dget a k = none) :
    dset a k v = a ++ [(k, v)] := by
  induction a with
  | nil => rfl
  | cons p rest ih =>
    rw [dget] at h
    by_cases hp : p.1 = k
    · rw [if_pos hp] at h; cases h
    · rw [if_neg hp] at h
      rw [dset, if_neg hp, List.cons_append, ih h]

theorem decodeGo_range (s : List Bool) :
    ∀ (n i : Nat) (a : List (Nat × Nat)),
      (∀ x, i ≤ x → dget a x = none) →
      decodeGo s i (List.range' i n) a
        = a ++ (List.range' i n).map (fun k => (k, pairVal s k)) := by
  intro n
  induction n with
  | zero => intro i a _; simp [decodeGo]
  | succ nn ih =>
    intro i a h
    rw [List.range'_succ, decodeGo, dset_fresh a i (pairVal s i) (h i (le_refl i))]
    rw [ih (i + 1) (a ++ [(i, pairVal s i)]) ?fresh]
    · rw [List.map_cons, List.append_assoc]
      rfl
    case fresh =>
      intro x hx
      rw [dget_append_left_none a _ x (h x (by omega))]
      rw [dget]
      rw [if_neg (by omega)]
      rfl

theorem decodeA_range (n : Nat) (s : List Bool) :
    decodeA (List.range n) s
      = (List.range n).map (fun k => (k, pairVal s k)) := by
  unfold decodeA
  rw [show sortIds (List.range n) = List.range n from
    (List.sorted_le_range n).insertionSort_eq]
  rw [List.range_eq_range']
  have h := decodeGo_range s n 0 [] (fun x _ => rfl)
  rw [h]
  rw [List.nil_append, ← List.range_eq_range']

theorem dget_keyed (f : Nat → Nat) :
    ∀ (l : List Nat) (k : Nat),
      dget (l.map (fun i => (i, f i))) k
        = if k ∈ l then some (f k) else none := by
  intro l
  induction l with
  | nil => intro k; simp [dget]
  | cons u us ih =>
    intro k
    rw [List.map_cons, dget]
    by_cases hu : u = k
    · subst hu
      rw [if_pos rfl, if_pos (List.mem_cons_self _ _)]
    · rw [if_neg hu, ih k]
      by_cases hm : k ∈ us
      · rw [if_pos hm, if_pos (List.mem_cons_of_mem _ hm)]
      · rw [if_neg hm, if_neg (by
          intro hc
          rcases List.mem_cons.mp hc with rfl | hc2
          · exact hu rfl
          · exact hm hc2)]

theorem weight_keyed (f : Nat → Nat) (l : List Nat) :
    weight (l.map (fun i => (i, f i))) = (l.map f).sum := by
  unfold weight
  rw [List.map_map]
  rfl

/-! ### Sums over a range whose tail is constant -/

theorem sum_map_range_tail_zero (g : Nat → Int) :
    ∀ (n : Nat), 3 ≤ n → (∀ j, 3 ≤ j → j < n → g j = 0) →
      ((List.range n).map g).sum = ((List.range 3).map g).sum := by
  intro n hn
  induction n, hn using Nat.le_induction with
  | base => intro _; rfl
  | succ n hn ih =>
    intro h
    rw [List.range_succ, List.map_append, List.sum_append]
    rw [ih (fun j h3 hj => h j h3 (by omega))]
    simp [h n hn (by omega)]

theorem sum_map_range_tail_const (f : Nat → Nat) (c : Nat) :
    ∀ (n : Nat), 3 ≤ n → (∀ j, 3 ≤ j → j < n → f j = c) →
      ((List.range n).map f).sum = ((List.range 3).map f).sum + (n - 3) * c := by
  intro n hn
  induction n, hn using Nat.le_induction with
  | base => intro _; simp
  | succ n hn ih =>
    intro h
    rw [List.range_succ, List.map_append, List.sum_append]
    rw [ih (fun j h3 hj => h j h3 (by omega))]
    simp only [List.map_cons, List.map_nil, List.sum_cons, List.sum_nil]
    rw [h n hn (by omega)]
    have : n + 1 - 3 = (n - 3) + 1 := by omega
    rw [this]
    ring

/-! ### Decoding the two concrete 1226-bit samples -/

theorem pairVal_bitsX_head0 : pairVal bitsX 0 = 0 := by decide

theorem pairVal_bitsX_head1 : pairVal bitsX 1 = 2 := by decide

theorem pairVal_bitsX_head2 : pairVal bitsX 2 = 2 := by decide

theorem pairVal_bitsY_head0 : pairVal bitsY 0 = 1 := by decide

theorem pairVal_bitsY_head1 : pairVal bitsY 1 = 2 := by decide

theorem pairVal_bitsY_head2 : pairVal bitsY 2 = 2 := by decide

theorem pairVal_bitsX_iso (i : Nat) (h3 : 3 ≤ i) (h6 : i ≤ 612) :
    pairVal bitsX i = 1 := by
  unfold pairVal bitsX
  rw [bitAt_append_high _ _ (2 * i + 1) (by simp; omega)
    (by rw [length_flatten_rep]; simp; omega)]
  rw [bitAt_append_high _ _ (2 * i + 2) (by simp; omega)
    (by rw [length_flatten_rep]; simp; omega)]
  simp only [List.length_cons, List.length_nil]
  rw [bitAt_flatten_rep false true 610 _ (by omega) (by omega)]
  rw [bitAt_flatten_rep false true 610 _ (by omega) (by omega)]
  rw [if_pos (show (2 * i + 1 - 6) % 2 = 1 from by omega)]
  rw [if_neg (show ¬ (2 * i + 2 - 6) % 2 = 1 from by omega)]
  rfl

theorem pairVal_bitsY_iso (i : Nat) (h3 : 3 ≤ i) (h6 : i ≤ 612) :
    pairVal bitsY i = 2 := by
  unfold pairVal bitsY
  rw [bitAt_append_high _ _ (2 * i + 1) (by simp; omega)
    (by rw [length_flatten_rep]; simp; omega)]
  rw [bitAt_append_high _ _ (2 * i + 2) (by simp; omega)
    (by rw [length_flatten_rep]; simp; omega)]
  simp only [List.length_cons, List.length_nil]
  rw [bitAt_flatten_rep true false 610 _ (by omega) (by omega)]
  rw [bitAt_flatten_rep true false 610 _ (by omega) (by omega)]
  rw [if_pos (show (2 * i + 1 - 6) % 2 = 1 from by omega)]
  rw [if_neg (show ¬ (2 * i + 2 - 6) % 2 = 1 from by omega)]
  rfl

theorem decodeX : decodeA bigV bitsX = aX := by
  unfold bigV aX
  rw [decodeA_range]
  apply List.map_congr_left
  intro i hi
  rw [List.mem_range] at hi
  have hv : pairVal bitsX i = fX i := by
    unfold fX
    by_cases h0 : i = 0
    · subst h0; rw [if_pos rfl]; exact pairVal_bitsX_head0
    · rw [if_neg h0]
      by_cases h3 : i < 3
      · rw [if_pos h3]
        have : i = 1 ∨ i = 2 := by omega
        rcases this with rfl | rfl
        · exact pairVal_bitsX_head1
        · exact pairVal_bitsX_head2
      · rw [if_neg h3]
        exact pairVal_bitsX_iso i (by omega) (by omega)
  rw [hv]

theorem decodeY : decodeA bigV bitsY = aY := by
  unfold bigV aY
  rw [decodeA_range]
  apply List.map_congr_left
  intro i hi
  rw [List.mem_range] at hi
  have hv : pairVal bitsY i = fY i := by
    unfold fY
    by_cases h0 : i = 0
    · subst h0; rw [if_pos rfl]; exact pairVal_bitsY_head0
    · rw [if_neg h0]
      by_cases h3 : i < 3
      · have : i = 1 ∨ i = 2 := by omega
        rcases this with rfl | rfl
        · exact pairVal_bitsY_head1
        · exact pairVal_bitsY_head2
      · exact pairVal_bitsY_iso i (by omega) (by omega)
  rw [hv]

/-! ### Scores of the two decoded samples -/

theorem aget_aX (j : Nat) (hj : j < 613) : aget aX j = fX j := by
  unfold aget aX
  rw [dget_keyed, if_pos (List.mem_range.mpr hj)]
  rfl

theorem aget_aY (j : Nat) (hj : j < 613) : aget aY j = fY j := by
  unfold aget aY
  rw [dget_keyed, if_pos (List.mem_range.mpr hj)]
  rfl

theorem get_neighbors_bigE_iso (j : Nat) (h : 3 ≤ j) :
    get_neighbors j bigE = [] := by
  unfold bigE
  rw [get_neighbors]
  rw [if_neg (show ¬ (Edge.mk 0 1 1).source = j from by simp; omega)]
  rw [if_neg (show ¬ (Edge.mk 0 1 1).target = j from by simp; omega)]
  rw [get_neighbors]
  rw [if_neg (show ¬ (Edge.mk 0 2 (-1)).source = j from by simp; omega)]
  rw [if_neg (show ¬ (Edge.mk 0 2 (-1)).target = j from by simp; omega)]
  rfl

theorem claimPenalty_aX_iso (j : Nat) (h3 : 3 ≤ j) (hlt : j < 613) :
    claimPenalty aX bigE j = 0 := by
  unfold claimPenalty defenseScore strongNb
  rw [get_neighbors_bigE_iso j h3]
  rw [aget_aX j hlt]
  rw [show fX j = 1 from by unfold fX; rw [if_neg (by omega), if_neg (by omega)]]
  norm_num

theorem claimPenalty_aY_iso (j : Nat) (h3 : 3 ≤ j) (hlt : j < 613) :
    claimPenalty aY bigE j = 0 := by
  unfold claimPenalty defenseScore strongNb
  rw [get_neighbors_bigE_iso j h3]
  rw [aget_aY j hlt]
  rw [show fY j = 2 from by unfold fY; rw [if_neg (by omega)]]
  norm_num

theorem claimViolations_aX : claimViolations aX bigV bigE = 6 := by
  unfold claimViolations bigV
  rw [sum_map_range_tail_zero (claimPenalty aX bigE) 613 (by omega)
    (fun j h3 hlt => claimPenalty_aX_iso j h3 hlt)]
  decide

theorem claimViolations_aY : claimViolations aY bigV bigE = 0 := by
  unfold claimViolations bigV
  rw [sum_map_range_tail_zero (claimPenalty aY bigE) 613 (by omega)
    (fun j h3 hlt => claimPenalty_aY_iso j h3 hlt)]
  decide

theorem claimWeight_eq_weight (a : List (Nat × Nat)) :
    claimWeight a = weight a := rfl

theorem weight_aX : weight aX = 614 := by
  unfold aX
  rw [weight_keyed, sum_map_range_tail_const fX 1 613 (by omega)
    (fun j h3 _ => by unfold fX; rw [if_neg (by omega), if_neg (by omega)])]
  decide

theorem weight_aY : weight aY = 1225 := by
  unfold aY
  rw [weight_keyed, sum_map_range_tail_const fY 2 613 (by omega)
    (fun j h3 _ => by unfold fY; rw [if_neg (by omega)])]
  decide

theorem combined_aX : combined bigV bigE (decodeA bigV bitsX) = 1214 := by
  rw [decodeX, combined_eq, claimViolations_aX, claimWeight_eq_weight, weight_aX]
  norm_num

theorem combined_aY : combined bigV bigE (decodeA bigV bitsY) = 1225 := by
  rw [decodeY, combined_eq, claimViolations_aY, claimWeight_eq_weight, weight_aY]
  norm_num

theorem selectBest_big :
    selectBest bigV bigE samplesBig
      = (decodeA bigV bitsX, some (combined bigV bigE (decodeA bigV bitsX))) := by
  unfold selectBest samplesBig
  rw [selectorLoop]
  dsimp only
  rw [if_neg (by omega)]
  rw [selectorLoop]
  dsimp only
  rw [if_neg (by omega)]
  rw [if_neg (by rw [combined_aX, combined_aY]; omega)]
  rw [selectorLoop]

/-! ### Remaining helper lemmas -/

theorem reduceVertex_bound2 (V : List Nat) (E : List Edge)
    (a a2 : List (Nat × Nat)) (v : Nat)
    (h : reduceVertex V E a v = some a2)
    (hb : ∀ p ∈ a, p.2 ≤ 2) : ∀ p ∈ a2, p.2 ≤ 2 := by
  rw [reduceVertex] at h
  cases hg : dget a v with
  | none => rw [hg] at h; cases h
  | some curr =>
    rw [hg] at h
    dsimp only at h
    by_cases hpos : curr > 0
    · rw [if_pos hpos] at h
      by_cases hv2 : (evaluate_solution (dset a v (curr - 1)) V E).1 = true
      · rw [if_pos hv2] at h
        simp only [Option.some.injEq] at h
        refine h ▸ bound2_dset a v (curr - 1) hb ?_
        have := hb (v, curr) (dget_mem a v curr hg)
        omega
      · rw [if_neg hv2] at h
        simp only [Option.some.injEq] at h
        exact h ▸ hb
    · rw [if_neg hpos] at h
      simp only [Option.some.injEq] at h
      exact h ▸ hb

theorem reduceGo_bound2 (V : List Nat) (E : List Edge) :
    ∀ (l : List Nat) (a a2 : List (Nat × Nat)),
      reduceGo V E l a = some a2 →
      (∀ p ∈ a, p.2 ≤ 2) → ∀ p ∈ a2, p.2 ≤ 2 := by
  intro l
  induction l with
  | nil =>
    intro a a2 h hb
    rw [reduceGo] at h
    simp only [Option.some.injEq] at h
    exact h ▸ hb
  | cons v vs ih =>
    intro a a2 h hb
    rw [reduceGo] at h
    cases hg : reduceVertex V E a v with
    | none => rw [hg] at h; cases h
    | some a1 =>
      rw [hg] at h
      exact ih a1 a2 h (reduceVertex_bound2 V E a a1 v hg hb)

theorem reducePass_bound2 (V : List Nat) (E : List Edge)
    (a a2 : List (Nat × Nat)) (h : reducePass V E a = some a2)
    (hb : ∀ p ∈ a, p.2 ≤ 2) : ∀ p ∈ a2, p.2 ≤ 2 := by
  rw [reducePass] at h
  cases h1 : reduceGo V E V a with
  | none => rw [h1] at h; cases h
  | some b1 =>
    rw [h1] at h
    dsimp only at h
    cases h2 : reduceGo V E V b1 with
    | none => rw [h2] at h; cases h
    | some b2 =>
      rw [h2] at h
      exact reduceGo_bound2 V E V b2 a2 h
        (reduceGo_bound2 V E V b1 b2 h2 (reduceGo_bound2 V E V a b1 h1 hb))

theorem selectorLoop_filter (V : List Nat) (E : List Edge) :
    ∀ (samples : List (List Bool × Nat)) (st : List (Nat × Nat) × Option Int),
      selectorLoop V E samples st
        = selectorLoop V E (samples.filter (fun b => decide (5 ≤ b.2))) st := by
  intro samples
  induction samples with
  | nil => intro st; rfl
  | cons b rest ih =>
    intro st
    obtain ⟨bits, count⟩ := b
    rw [List.filter_cons]
    by_cases hc : count < 5
    · rw [selectorLoop, if_pos hc,
        if_neg (by simpa using hc)]
      exact ih st
    · rw [if_pos (by simpa using (not_lt.mp hc))]
      rw [selectorLoop, selectorLoop, if_neg hc, if_neg hc]
      obtain ⟨A, S⟩ := st
      cases S with
      | none => exact ih _
      | some s0 =>
        dsimp only
        by_cases hlt : combined V E (decodeA V bits) < s0
        · rw [if_pos hlt, if_pos hlt]
          exact ih _
        · rw [if_neg hlt, if_neg hlt]
          exact ih _

theorem pairVal_short (s : List Bool) (i : Nat) (h : s.length < 2 * i + 2) :
    pairVal s i = 0 := by
  unfold pairVal
  rw [show bitAt s (2 * i + 2) = none from by
    unfold bitAt
    rw [if_neg (by omega)]]
  cases bitAt s (2 * i + 1) <;> rfl

theorem sortIds_nodup (V : List Nat) (h : V.Nodup) : (sortIds V).Nodup :=
  ((List.perm_insertionSort (· ≤ ·) V).symm).nodup h

theorem decodeA_get (V : List Nat) (s : List Bool) (hnd : V.Nodup)
    (i : Nat) (hi : i < (sortIds V).length) :
    dget (decodeA V s) ((sortIds V).get ⟨i, hi⟩) = some (pairVal s i) := by
  unfold decodeA
  rw [decodeGo_get s (sortIds V) 0 [] (sortIds_nodup V hnd) i hi]
  rw [Nat.zero_add]

/-! ### Claim theorems -/

/-- Claim C1: for every graph and every assignment, `evaluate_solution`
returns weight equal to the sum of the assigned values, violations equal to
the sum over all vertices of a 10-penalty for a failed domination condition
plus `5 + (1 - defense)` for a defense score below 1 (dangling endpoints
contributing 0), and valid exactly when violations is 0. -/
theorem c1_evaluator_matches_spec (a : List (Nat × Nat)) (V : List Nat)
    (E : List Edge) :
    evaluate_solution a V E
      = (claimViolations a V E == 0, claimWeight a, claimViolations a V E) :=
  eval_eq_claim a V E

/-- Claim C2, counterexample: on the all-negative complete graph on 8
vertices the greedy repair engine terminates with the all-2 assignment,
whose violations score 144 exceeds the all-zero assignment's score 128. -/
theorem c2_counterexample :
    greedyRepair vK8 eK8 = some aAllTwo ∧
    (evaluate_solution (initA vK8) vK8 eK8).2.2 = 128 ∧
    (evaluate_solution aAllTwo vK8 eK8).2.2 = 144 ∧
    ¬ ((evaluate_solution aAllTwo vK8 eK8).2.2
        ≤ (evaluate_solution (initA vK8) vK8 eK8).2.2) := by
  refine ⟨by decide, by decide, by decide, by decide⟩

/-- Claim C2, amended: for every finite graph whose edge endpoints all lie
in the vertex set, the greedy repair engine (all-zero start, iteration cap
100) terminates within the cap and returns an assignment defined on every
vertex; its violations score may exceed that of the all-zero assignment. -/
theorem c2_repair_terminates (V : List Nat) (E : List Edge)
    (hwf : WFGraph V E) :
    ∃ a, greedyRepair V E = some a ∧ ∀ v ∈ V, (dget a v).isSome := by
  unfold greedyRepair
  exact greedyLoop_ok V E hwf 100 (initA V) (initA_dom V)

theorem c2_witness :
    WFGraph vPair ePair ∧
    ∃ a, greedyRepair vPair ePair = some a ∧ ∀ v ∈ vPair, (dget a v).isSome :=
  ⟨by unfold WFGraph; decide,
   c2_repair_terminates vPair ePair (by unfold WFGraph; decide)⟩

/-- Claim C3, counterexample: on a 613-vertex graph, the sample `bitsY`
survives the noise floor and decodes to a valid assignment, yet the
selector (which ranks purely by combined score) picks the invalid sample
`bitsX` because 6 violations and weight 614 score 1214, below the valid
sample's weight 1225. -/
theorem c3_counterexample :
    (bitsY, 100) ∈ samplesBig ∧ ¬ ((100 : Nat) < 5) ∧
    (evaluate_solution (decodeA bigV bitsY) bigV bigE).1 = true ∧
    (evaluate_solution (selectBest bigV bigE samplesBig).1 bigV bigE).1
      = false := by
  refine ⟨by simp [samplesBig], by omega, ?_, ?_⟩
  · rw [decodeY, eval_valid_iff]
    exact claimViolations_aY
  · rw [selectBest_big]
    dsimp only
    rw [decodeX]
    rw [show (evaluate_solution aX bigV bigE).1
        = (claimViolations aX bigV bigE == 0) from by rw [eval_eq_claim]]
    rw [claimViolations_aX]
    rfl

/-- Claim C3, amended: for every graph of at most 63 vertices (the largest
the solver admits), if some sample surviving the count-below-5 noise floor
decodes to a valid assignment, the selector's choice is valid: a valid
sample's combined score is its weight, at most 126, while an invalid
sample's is at least 600, so the combined score alone separates them. -/
theorem c3_selector_validity (V : List Nat) (E : List Edge)
    (samples : List (List Bool × Nat)) (hsize : V.length ≤ 63)
    (hex : ∃ b ∈ samples, ¬ b.2 < 5 ∧
      (evaluate_solution (decodeA V b.1) V E).1 = true) :
    (evaluate_solution (selectBest V E samples).1 V E).1 = true := by
  obtain ⟨b, hb, hc, hvalid⟩ := hex
  obtain ⟨t, ht, hle⟩ := selectorLoop_le V E samples [] none b hb hc
  unfold selectBest
  have hinv := selectorLoop_inv V E samples [] none (fun t ht => by cases ht) t ht
  have hvB : claimViolations (decodeA V b.1) V E = 0 :=
    (eval_valid_iff _ V E).mp hvalid
  have hcomb : combined V E (decodeA V b.1)
      = (claimWeight (decodeA V b.1) : Int) := by
    rw [combined_eq, hvB]
    ring
  have hwle : claimWeight (decodeA V b.1) ≤ 126 := by
    rw [claimWeight_eq_weight]
    have h1 := weight_decodeA_le V b.1
    omega
  have ht126 : t ≤ 126 := by
    rw [hcomb] at hle
    omega
  rw [eval_valid_iff]
  rcases claimViolations_cases (selectorLoop V E samples ([], none)).1 V E
    with h0 | h6
  · exact h0
  · exfalso
    rw [combined_eq] at hinv
    have hwnn : (0 : Int) ≤
        (claimWeight (selectorLoop V E samples ([], none)).1 : Int) := by
      positivity
    omega

theorem c3_witness :
    ([0] : List Nat).length ≤ 63 ∧
    (∃ b ∈ [([true, false], 5)], ¬ b.2 < 5 ∧
      (evaluate_solution (decodeA [0] b.1) [0] ([] : List Edge)).1 = true) ∧
    (evaluate_solution
      (selectBest [0] [] [([true, false], 5)]).1 [0] []).1 = true :=
  ⟨by decide, by decide,
   c3_selector_validity [0] [] [([true, false], 5)] (by decide) (by decide)⟩

/-- Claim C4: for every graph and every complete assignment that is valid
before the weight reduction pass, the pass (3 passes of tentative
single-vertex decrements, reverting on invalidity) returns an assignment
that is still valid and whose total weight has not increased. -/
theorem c4_reduction_monotone (V : List Nat) (E : List Edge)
    (a : List (Nat × Nat)) (hdom : ∀ v ∈ V, (dget a v).isSome)
    (hvalid : (evaluate_solution a V E).1 = true) :
    ∃ a2, reducePass V E a = some a2 ∧
      (evaluate_solution a2 V E).1 = true ∧ weight a2 ≤ weight a := by
  obtain ⟨a2, h, _, hw, hv, _⟩ := reducePass_spec V E a hdom
  exact ⟨a2, h, hv hvalid, hw⟩

theorem c4_witness :
    (∀ v ∈ vPair, (dget [(0, 0), (1, 2)] v).isSome) ∧
    (evaluate_solution [(0, 0), (1, 2)] vPair ePair).1 = true ∧
    ∃ a2, reducePass vPair ePair [(0, 0), (1, 2)] = some a2 ∧
      (evaluate_solution a2 vPair ePair).1 = true ∧
      weight a2 ≤ weight [(0, 0), (1, 2)] :=
  ⟨by decide, by decide,
   c4_reduction_monotone vPair ePair [(0, 0), (1, 2)] (by decide) (by decide)⟩

/-- Claim C5, counterexample: on a single-vertex graph with a dangling edge
the classical branch dies with a `KeyError`, so with an empty sample
multiset the pipeline returns the untouched empty quantum candidate, which
assigns no value to vertex 0 — not the greedy/reduction result. -/
theorem c5_counterexample :
    classicalBranch vSolo eDangle = none ∧
    pipeline vSolo eDangle [] = [] ∧
    dget (pipeline vSolo eDangle []) 0 = none := by
  refine ⟨by decide, by decide, by decide⟩

/-- Claim C5, amended: for every graph whose edge endpoints all lie in the
vertex set, when the sampler returns an empty multiset the pipeline
returns exactly the assignment produced by the classical greedy repair
and weight reduction branch. -/
theorem c5_fallback (V : List Nat) (E : List Edge) (hwf : WFGraph V E) :
    ∃ a s, classicalBranch V E = some (a, s) ∧ pipeline V E [] = a := by
  obtain ⟨a1, h1, hdom1⟩ := greedyLoop_ok V E hwf 100 (initA V) (initA_dom V)
  obtain ⟨a2, h2, _, _, _, _⟩ := reducePass_spec V E a1 hdom1
  have hcb : classicalBranch V E = some (a2, combined V E a2) := by
    unfold classicalBranch greedyRepair
    rw [h1]
    dsimp only
    rw [h2]
  refine ⟨a2, combined V E a2, hcb, ?_⟩
  unfold pipeline
  rw [hcb]
  rfl

theorem c5_witness :
    WFGraph vPair ePair ∧
    ∃ a s, classicalBranch vPair ePair = some (a, s) ∧
      pipeline vPair ePair [] = a :=
  ⟨by unfold WFGraph; decide,
   c5_fallback vPair ePair (by unfold WFGraph; decide)⟩

/-- Claim C6, counterexample: a sample observed 3 times (at least the
claimed noise floor of 2) is discarded by the selector, which skips every
count below 5; the selector state stays at its initial empty value. -/
theorem c6_counterexample :
    (2 : Nat) ≤ 3 ∧ selectBest [0] [] [([false, true], 3)] = ([], none) :=
  ⟨by omega, by decide⟩

/-- Claim C6, amended: the selector discards exactly the samples whose
observed count is below 5, and decodes and evaluates every sample with
count at least 5: its result equals its result on the list filtered to
counts of at least 5. -/
theorem c6_noise_floor (V : List Nat) (E : List Edge)
    (samples : List (List Bool × Nat)) :
    selectBest V E samples
      = selectBest V E (samples.filter (fun b => decide (5 ≤ b.2))) :=
  selectorLoop_filter V E samples ([], none)

/-- Claim C7, counterexample: decoding the 1-bit sequence `1` for one
vertex: the low-bit offset 0 is within the sequence and holds 1, but the
vertex receives 0, not its low bit — the whole pair is zeroed by the
per-vertex exception handler. -/
theorem c7_counterexample :
    bitAt [true] 1 = some true ∧ decodeA [0] [true] = [(0, 0)] := by
  refine ⟨by decide, by decide⟩

/-- Claim C7, amended: for every bit-sequence too short for a vertex —
whenever the high-bit offset of vertex number `i` lies past the end — the
decoder assigns that vertex value 0 outright (it does not keep the low
bit); vertices whose two offsets are in range are decoded normally. -/
theorem c7_short_decode (V : List Nat) (s : List Bool) (hnd : V.Nodup)
    (i : Nat) (hi : i < (sortIds V).length) (hshort : s.length < 2 * i + 2) :
    dget (decodeA V s) ((sortIds V).get ⟨i, hi⟩) = some 0 := by
  rw [decodeA_get V s hnd i hi, pairVal_short s i hshort]

theorem c7_witness :
    ([0] : List Nat).Nodup ∧ ([true] : List Bool).length < 2 * 0 + 2 ∧
    dget (decodeA [0] [true]) ((sortIds [0]).get ⟨0, by decide⟩) = some 0 :=
  ⟨by decide, by decide,
   c7_short_decode [0] [true] (by decide) 0 (by decide) (by decide)⟩

/-- Claim C8: for a bit-sequence long enough, the decoder visits vertices
in ascending identifier order; vertex number `i` takes its low bit at
offset `2i` and high bit at offset `2i+1` from the end, its value is
`(highBit << 1) | lowBit`, and the pair `11` decodes to 0, never 3. -/
theorem c8_decoder (V : List Nat) (s : List Bool) (hnd : V.Nodup) (i : Nat)
    (hi : i < (sortIds V).length) (b0 b1 : Bool)
    (hb0 : bitAt s (2 * i + 1) = some b0)
    (hb1 : bitAt s (2 * i + 2) = some b1) :
    dget (decodeA V s) ((sortIds V).get ⟨i, hi⟩)
      = some (if 2 * b1.toNat + b0.toNat = 3 then 0
              else 2 * b1.toNat + b0.toNat) := by
  rw [decodeA_get V s hnd i hi]
  unfold pairVal
  rw [hb0, hb1]

theorem c8_witness :
    bitAt [true, false, false, false] 3 = some false ∧
    bitAt [true, false, false, false] 4 = some true ∧
    dget (decodeA [0, 1] [true, false, false, false])
      ((sortIds [0, 1]).get ⟨1, by decide⟩) = some 2 :=
  ⟨by decide, by decide,
   c8_decoder [0, 1] [true, false, false, false] (by decide) 1 (by decide)
     false true (by decide) (by decide)⟩

/-- Claim C9 (code bug): the solver performs no input validation at all:
the empty graph — which the claim says must fail fast with `InvalidGraph`
— passes the only graph-dependent check and the classical evaluation runs
to completion on it, while a well-formed 64-vertex graph is surfaced to
the caller as a failure ("Graph too large"). -/
theorem c9_no_invalid_graph_check :
    solverPrecheck [] = none ∧
    classicalBranch [] [] = some ([], 0) ∧
    (solverPrecheck (List.range 64)).isSome = true := by
  refine ⟨by decide, by decide, by decide⟩

/-- Claim C10: every assignment the greedy repair engine returns, and every
assignment the weight reduction pass then returns, gives each vertex a
value in {0, 1, 2}: repair starts all-zero and writes only the value 2,
reduction only decrements positive values by 1. -/
theorem c10_value_range (V : List Nat) (E : List Edge)
    (a a2 : List (Nat × Nat)) (h1 : greedyRepair V E = some a)
    (h2 : reducePass V E a = some a2) :
    (∀ p ∈ a, p.2 ≤ 2) ∧ (∀ p ∈ a2, p.2 ≤ 2) := by
  have hb : ∀ p ∈ a, p.2 ≤ 2 := by
    unfold greedyRepair at h1
    exact greedyLoop_bound2 V E 100 (initA V) a h1 (initA_bound2 V)
  exact ⟨hb, reducePass_bound2 V E a a2 h2 hb⟩

theorem c10_witness :
    greedyRepair vPair ePair = some [(0, 0), (1, 2)] ∧
    reducePass vPair ePair [(0, 0), (1, 2)] = some [(0, 0), (1, 2)] ∧
    ((∀ p ∈ ([(0, 0), (1, 2)] : List (Nat × Nat)), p.2 ≤ 2) ∧
      (∀ p ∈ ([(0, 0), (1, 2)] : List (Nat × Nat)), p.2 ≤ 2)) :=
  ⟨by decide, by decide,
   c10_value_range vPair ePair [(0, 0), (1, 2)] [(0, 0), (1, 2)]
     (by decide) (by decide)⟩
